import Mathlib

/-!
# Verification of the pymake build engine (src/lib/pymake.py)

Shallow embedding of the core of the pymake build system: timestamps with an
undefined (NaN) value, the `Requirement` class hierarchy, graph construction
(`build_dep_graph`), order planning (`build_orders` / `merge_orders`), the
executor (`run_orders`) and the backup-on-failure protocol
(`backup_existing_while` / `TaskReq.run`).

Python floats used as modification times are modelled as `ℚ` plus an explicit
NaN constructor; Python's `<` and builtin `max` are translated with their
exact NaN behaviour (NaN is incomparable, and `max` keeps the current
candidate when the comparison with the next element is false).

Python sets and dicts of `Requirement` objects are modelled as lists with
membership decided by the object's hash-identity: `TaskReq.__hash__` hashes
the recipe and `TaskReq.__eq__` compares recipes, while every other variant
hashes and compares the target string (`Requirement.__hash__`/`__eq__`).
Hash and equality agree on same-variant comparisons; a cross-variant hash
collision would make CPython's `TaskReq.__eq__` raise `AttributeError`, so
list operations keyed by the hash string are a faithful model of the
behaviour on inputs where the program does not crash.
-/

namespace Pymake

/-- Python float timestamps: a rational value or NaN
(`float('nan')`, returned by `last_update` for missing files). -/
inductive TS
  | nan
  | val (t : ℚ)
deriving DecidableEq, Repr

/-- Python `<` on floats: any comparison involving NaN is `False`. -/
def TS.lt : TS → TS → Bool
  | .val a, .val b => decide (a < b)
  | _, _ => false

/-- `math.isnan`. -/
def TS.isNan : TS → Bool
  | .nan => true
  | .val _ => false

/-- Python's builtin `max` over a list (`max(preq_update_times)` at
pymake.py:427): start from the first element and replace the candidate by the
next element only when `next > candidate` is `True`.  With NaN all
comparisons are `False`, so the result depends on the position of NaN.
Python raises on an empty list; `build_orders` only calls it with a
non-empty list, and we return NaN in the unreachable empty case. -/
def pymax : List TS → TS
  | [] => .nan
  | h :: t => t.foldl (fun acc x => if TS.lt acc x then x else acc) h

/-- The `Requirement` hierarchy (pymake.py:197-327): `FileReq` (a plain
file), `TaskReq` (file produced by a recipe, with an order-only flag) and
`DummyReq` (aggregate, prerequisites but no recipe). -/
inductive Req
  | file (trgt : String)
  | task (trgt : String) (preqs : List String) (recipe : String) (order_only : Bool)
  | dummy (trgt : String) (preqs : List String)
deriving DecidableEq, Repr

/-- `Requirement.target` — every variant stores a target identifier. -/
def Req.target : Req → String
  | .file t => t
  | .task t _ _ _ => t
  | .dummy t _ => t

/-- The string fed to `hash` by `__hash__`: `TaskReq.__hash__` returns
`hash(self.recipe)` (pymake.py:272-273); `Requirement.__hash__` returns
`hash(self.target)` (pymake.py:219-220), inherited by `FileReq` and
`DummyReq`. -/
def Req.hashKey : Req → String
  | .task _ _ r _ => r
  | .file t => t
  | .dummy t _ => t

/-- `__eq__` as dispatched by Python: `TaskReq.__eq__` compares
`self.recipe == other.recipe` (pymake.py:275-277) and raises
`AttributeError` (modelled as `none`) when `other` has no `recipe`
attribute; all other variants use `Requirement.__eq__`, which compares
`self.target == other.target` (pymake.py:222-223) — every variant has a
`target`. -/
def Req.eqb : Req → Req → Option Bool
  | .task _ _ r₁ _, .task _ _ r₂ _ => some (r₁ == r₂)
  | .task _ _ _ _, .file _ => none
  | .task _ _ _ _, .dummy _ _ => none
  | a, b => some (a.target == b.target)

/-- Identity of a `Requirement` inside Python sets and dicts: the hash key
(equality agrees with it on all same-variant comparisons). -/
def Req.pkey : Req → String := Req.hashKey

/-- `hasattr(req, 'run')` (pymake.py:409): `TaskReq` and `DummyReq` define
`run`, `FileReq` does not. -/
def Req.runnable : Req → Bool
  | .file _ => false
  | .task _ _ _ _ => true
  | .dummy _ _ => true

/-- `self.prerequisites` for task and dummy requirements. -/
def Req.prerequisites : Req → List String
  | .file _ => []
  | .task _ p _ _ => p
  | .dummy _ p => p

/-- Is this a `TaskReq`? -/
def Req.isTask : Req → Bool
  | .task _ _ _ _ => true
  | _ => false

/-- The filesystem as seen by the planner: for each path, `some mtime`
(`os.path.exists` true, `os.path.getmtime`) or `none` (missing file). -/
abbrev MFS := String → Option ℚ

/-- `last_update` (pymake.py:248-252, 279-286, 319-320):
`FileReq` returns the mtime or NaN; `TaskReq` returns `0.0` when it is
order-only and the file exists, and otherwise defers to `FileReq`;
`DummyReq` always returns NaN. -/
def Req.last_update (fs : MFS) : Req → TS
  | .file t =>
    match fs t with
    | some m => .val m
    | none => .nan
  | .task t _ _ oo =>
    if oo && (fs t).isSome then .val 0
    else
      match fs t with
      | some m => .val m
      | none => .nan
  | .dummy _ _ => .nan

section KeyedSets

variable {α κ : Type} [DecidableEq κ]

/-- Membership in a Python set/dict modelled as a list, decided by the key
function (hash identity). -/
def pmem (key : α → κ) (x : α) (s : List α) : Bool :=
  s.any fun y => decide (key y = key x)

/-- `set.add`: a no-op when an equal element is present (the first-inserted
element survives). -/
def padd (key : α → κ) (s : List α) (x : α) : List α :=
  if pmem key x s then s else s ++ [x]

/-- `set.union` / `|=`: add the elements of `t` to `s` in order. -/
def punion (key : α → κ) (s t : List α) : List α :=
  t.foldl (padd key) s

/-- `set.difference` / `-=`: drop the elements of `s` whose key occurs
in `t`. -/
def pdiff (key : α → κ) (s t : List α) : List α :=
  s.filter fun x => !(pmem key x t)

end KeyedSets

section MergeOrders

variable {α κ : Type} [DecidableEq κ]

/-- Number of iterations of `itertools.zip_longest(*iters)` — the length of
the longest input. -/
def maxLen (ls : List (List α)) : Nat :=
  ls.foldl (fun a l => max a l.length) 0

/-- `set.union(*priority_orders)` for one `zip_longest` position: union of
the heads of all the input lists, with `fillvalue=set()` for exhausted
inputs (pymake.py:388-389). -/
def headsUnion (key : α → κ) (ls : List (List (List α))) : List α :=
  ls.foldl (fun acc l => punion key acc (l.headD [])) []

/-- The loop body of `merge_orders` (pymake.py:387-393): at each position,
take the union of the heads, subtract the already-returned elements, record
them as returned, and yield the set when it is non-empty. -/
def mergeAux (key : α → κ) : Nat → List (List (List α)) → List α → List (List α)
  | 0, _, _ => []
  | n + 1, ls, ret =>
    let p := pdiff key (headsUnion key ls) ret
    let rest := mergeAux key n (ls.map List.tail) (punion key ret p)
    if p.isEmpty then rest else p :: rest

/-- `merge_orders(*iters)` (pymake.py:376-393), with the generator fully
evaluated into a list. -/
def merge_orders (key : α → κ) (ls : List (List (List α))) : List (List α) :=
  mergeAux key (maxLen ls) ls []

end MergeOrders

/-- A Python dict from `Requirement` to a requirement set, modelled as an
association list keyed by `Req.pkey` (insertion order preserved, as in
CPython). -/
abbrev Graph := List (Req × List Req)

/-- `graph[req]` lookup (`req in graph` is `isSome`). -/
def glookup (g : Graph) (r : Req) : Option (List Req) :=
  (g.find? fun e => decide (e.1.pkey = r.pkey)).map (·.2)

/-- `graph[key] = value`: replace the value at an existing key (the
first-inserted key object is retained, as in CPython) or append a new
entry. -/
def ginsert (g : Graph) (r : Req) (v : List Req) : Graph :=
  if g.any fun e => decide (e.1.pkey = r.pkey) then
    g.map fun e => if e.1.pkey = r.pkey then (e.1, v) else e
  else
    g ++ [(r, v)]

/-- `dict(list(a.items()) + list(b.items()))` (pymake.py:371): entries of
`b` inserted after those of `a`, so on a duplicate key the value of `b`
wins while the key object of `a` is kept. -/
def graphUnion (a b : Graph) : Graph :=
  b.foldl (fun g e => ginsert g e.1 e.2) a

/-- Python whitespace as stripped by `str.strip`. -/
def isPySpace (c : Char) : Bool :=
  c = ' ' || c = '\t' || c = '\n' || c = '\r' || c = '\x0b' || c = '\x0c'

/-- `str.strip()`: drop leading and trailing whitespace. -/
def pstrip (s : String) : String :=
  String.mk ((((s.data.dropWhile isPySpace).reverse.dropWhile
    isPySpace).reverse))

/-- A `Rule` (pymake.py:82-194) after `__init__`.  The regex and
`str.format` machinery of `_get_target_pattern`, `_make_preqs` and
`_make_recipe` is external library behaviour; it is carried as behaviour
fields: `applies` is the anchored-regex match test, and `fmtPreq`/`fmtRecipe`
instantiate one template string for a concrete target (capture groups, the
`trgt`/`preqs`/`all_preqs` names and the environment are internal to these
functions).  `build_dep_graph` and `make_task` use rules only through these
entry points. -/
structure Rule where
  applies : String → Bool
  preq_templates : List String
  fmtPreq : String → String → String
  fmtRecipe : String → String → String
  recipe_template : Option String
  order_only : Bool

/-- `Rule.__init__` (pymake.py:96-104): strip each prerequisite template,
and normalize an empty-string recipe template to `None`. -/
def Rule.init (applies : String → Bool) (preqs : List String)
    (fmtPreq fmtRecipe : String → String → String)
    (recipe : Option String) (order_only : Bool) : Rule :=
  { applies := applies
    preq_templates := preqs.map pstrip
    fmtPreq := fmtPreq
    fmtRecipe := fmtRecipe
    recipe_template := if recipe = some "" then none else recipe
    order_only := order_only }

/-- `Rule._make_preqs` (pymake.py:156-166): instantiate every prerequisite
template for the target. -/
def Rule.make_preqs (r : Rule) (trgt : String) : List String :=
  r.preq_templates.map fun tpl => r.fmtPreq tpl trgt

/-- `Rule._make_recipe` (pymake.py:168-181): instantiate the recipe
template (only called when it is not `None`). -/
def Rule.make_recipe (r : Rule) (trgt : String) : String :=
  r.fmtRecipe (r.recipe_template.getD "") trgt

/-- `Rule.make_task` (pymake.py:183-191): a `DummyReq` when the rule has no
recipe template, otherwise a `TaskReq`. -/
def Rule.make_task (r : Rule) (trgt : String) : Req :=
  match r.recipe_template with
  | none => .dummy trgt (r.make_preqs trgt)
  | some _ => .task trgt (r.make_preqs trgt) (r.make_recipe trgt) r.order_only

/-- The scan at pymake.py:347-352: find the first rule that applies to the
target and return it together with the remaining list (the matched rule
popped). -/
def findRule : List Rule → String → Option (Rule × List Rule)
  | [], _ => none
  | r :: rs, t =>
    if r.applies t then some (r, rs)
    else (findRule rs t).map fun p => (p.1, r :: p.2)

/-- The `ValueError` message raised at pymake.py:360-363. -/
def noRuleMsg (trgt : String) : String :=
  "No rule defined for " ++ trgt ++ ", the required file doesn't exist, " ++
    "or there is a cycle in the dependency graph."

/-- The loop at pymake.py:368-371, abstracted over the recursive resolver
`step` (applied to each prerequisite in order): accumulate each
prerequisite's root into `preq_tasks` (a set keyed by hash identity) and
merge its graph into `trgt_graph` (dict union, later entries win); a fuel
failure (`none`) or a raised `ValueError` (`Except.error`) propagates
immediately, as the Python exception does. -/
def bdgFold (step : String → Option (Except String (Req × Graph))) :
    List String → List Req → Graph → Option (Except String (List Req × Graph))
  | [], accT, accG => some (.ok (accT, accG))
  | p :: ps, accT, accG =>
    match step p with
    | none => none
    | some (.error e) => some (.error e)
    | some (.ok (pt, pg)) =>
      bdgFold step ps (padd Req.pkey accT pt) (graphUnion accG pg)

/-- `build_dep_graph` (pymake.py:329-373) with a fuel parameter (`none` =
fuel exhausted, never reached when fuel exceeds the rule-list length, since
each recursive call receives the list with the matched rule removed).
`Except.error` models the raised `ValueError`. -/
def build_dep_graph (fs : MFS) :
    Nat → String → List Rule → Option (Except String (Req × Graph))
  | 0, _, _ => none
  | n + 1, trgt, rules =>
    match findRule rules trgt with
    | none =>
      if (fs trgt).isSome then
        some (.ok (.file trgt, [(.file trgt, [])]))
      else
        some (.error (noRuleMsg trgt))
    | some (rule, rest) =>
      let trgt_task := rule.make_task trgt
      match bdgFold (fun p => build_dep_graph fs n p rest)
          (trgt_task.prerequisites) [] [] with
      | none => none
      | some (.error e) => some (.error e)
      | some (.ok (preq_tasks, trgt_graph)) =>
        some (.ok (trgt_task, ginsert trgt_graph trgt_task preq_tasks))

/-- The leaf branch of `build_orders` (pymake.py:407-420). -/
def buildOrdersLeaf (req : Req) (last_req_update : TS) :
    List (List Req) × TS :=
  if !req.runnable then ([[]], last_req_update)
  else if !last_req_update.isNan then ([[]], last_req_update)
  else ([[req]], last_req_update)

/-- The loop at pymake.py:423-426, abstracted over the recursive planner
`step` (applied to each prerequisite in iteration order): collect the wave
lists and the timestamps; a fuel failure propagates. -/
def boFold (step : Req → Option (List (List Req) × TS)) :
    List Req → Option (List (List (List Req)) × List TS)
  | [] => some ([], [])
  | p :: ps =>
    match step p with
    | none => none
    | some (ol, t) =>
      match boFold step ps with
      | none => none
      | some (ols, ts) => some (ol :: ols, t :: ts)

/-- `build_orders` (pymake.py:396-443) with fuel (`none` = fuel exhausted;
the Python recursion does not terminate on a cyclic graph).  Returns the
wave list (a list of requirement sets, root wave first) and the effective
timestamp propagated to the caller.  Leaf case (pymake.py:407-420): a
requirement absent from the graph or with an empty prerequisite set
contributes an empty wave when it is not runnable or its target already
exists, and schedules itself when it is runnable and its timestamp is NaN.
Recursive case (pymake.py:421-443): recurse on every prerequisite, take
Python `max` of the returned timestamps, merge the wave lists, and either
report up-to-date (strictly older maximum) or prepend a singleton wave. -/
def build_orders (fs : MFS) :
    Nat → Req → Graph → Option (List (List Req) × TS)
  | 0, _, _ => none
  | n + 1, req, graph =>
    let last_req_update := req.last_update fs
    match glookup graph req with
    | none => some (buildOrdersLeaf req last_req_update)
    | some [] => some (buildOrdersLeaf req last_req_update)
    | some (p :: ps) =>
      match boFold (fun q => build_orders fs n q graph) (p :: ps) with
      | none => none
      | some (preq_orders_lists, preq_update_times) =>
        let last_graph_update := pymax preq_update_times
        let preq_orders_list := merge_orders Req.pkey preq_orders_lists
        if TS.lt last_graph_update last_req_update then
          some ([[]], last_req_update)
        else
          some ([req] :: preq_orders_list, last_graph_update)

/-! ## Executor -/

/-- `TaskReq.run` receives `exc_event` as a keyword argument
(pymake.py:288) but its body never calls `exc_event.set()`
(pymake.py:288-309), so the event checked by `run_orders` can never become
set during a build. -/
def taskRunSetsExcEvent : Bool := false

/-- One wave run sequentially (the `else` branch at pymake.py:461-463): a
raised `CalledProcessError` propagates immediately, so later tasks of the
wave are not started.  Returns the executed tasks and the success flag. -/
def runWaveSeq (ok : Req → Bool) : List Req → List Req × Bool
  | [] => ([], true)
  | t :: ts =>
    if ok t then
      let r := runWaveSeq ok ts
      (t :: r.1, r.2)
    else ([t], false)

/-- `run_orders` in sequential mode (pymake.py:446-466 with
`parallel=False`): waves run in reverse list order; an exception raised by
a task propagates out of `run_orders`, halting everything after it. -/
def run_orders_seq (ok : Req → Bool) (orders : List (List Req)) :
    List Req × Bool :=
  go (orders.reverse)
where
  go : List (List Req) → List Req × Bool
  | [] => ([], true)
  | w :: rest =>
    let r := runWaveSeq ok w
    if r.2 then
      let r' := go rest
      (r.1 ++ r'.1, r'.2)
    else (r.1, false)

/-- `run_orders` in parallel mode (pymake.py:454-460, 464-466): every task
of the wave is started in its own thread and all threads are joined; an
exception raised inside a thread is swallowed by the threading module, and
a failing wave is detected only through `exc_event.is_set()` — which a
failing task would have to set (`taskRunSetsExcEvent`). -/
def run_orders_par (ok : Req → Bool) (orders : List (List Req)) :
    List Req × Bool :=
  go (orders.reverse)
where
  go : List (List Req) → List Req × Bool
  | [] => ([], true)
  | w :: rest =>
    if w.any fun t => taskRunSetsExcEvent && !(ok t) then (w, false)
    else
      let r := go rest
      (w ++ r.1, r.2)

/-- `make` (pymake.py:469-475): build the graph, plan the orders, run them.
Returns the list of executed tasks together with the outcome (`Except`
error = the raised exception); fuel exhaustion gives `none`.  A graph or
planning failure yields an empty executed-task list: no recipe runs. -/
def makeRun (fs : MFS) (ok : Req → Bool) (fuel : Nat) (trgt : String)
    (rules : List Rule) (parallel : Bool) :
    Option (List Req × Except String Unit) :=
  match build_dep_graph fs fuel trgt rules with
  | none => none
  | some (.error e) => some ([], .error e)
  | some (.ok (root, graph)) =>
    match build_orders fs fuel root graph with
    | none => none
    | some (orders, _) =>
      let r := if parallel then run_orders_par ok orders
               else run_orders_seq ok orders
      some (r.1, if r.2 then .ok () else
        .error "At least one order failed in this set.")

/-! ## Backup-on-failure protocol

The filesystem as seen by `backup_existing_while` and `TaskReq.run`:
a map from paths to file contents. -/

/-- Content view of the filesystem. -/
abbrev CFS := String → Option String

/-- `os.rename(src, dst)`: the destination receives the source's content,
the source disappears. -/
def fsRename (src dst : String) (fs : CFS) : CFS :=
  fun p => if p = dst then fs src else if p = src then none else fs p

/-- `os.remove(path)`. -/
def fsRemove (path : String) (fs : CFS) : CFS :=
  fun p => if p = path then none else fs p

/-- Split a character list at every slash. -/
def splitSlash : List Char → List (List Char)
  | [] => [[]]
  | c :: cs =>
    let r := splitSlash cs
    if c = '/' then [] :: r
    else (c :: r.headD []) :: r.tail

/-- Rejoin character-list components with slashes. -/
def joinSlash : List (List Char) → List Char
  | [] => []
  | [l] => l
  | l :: ls => l ++ '/' :: joinSlash ls

/-- `os.path.basename` (the part after the last slash). -/
def basename (p : String) : String :=
  String.mk ((splitSlash p.data).getLastD [])

/-- `os.path.dirname` (the part before the last slash). -/
def dirname (p : String) : String :=
  String.mk (joinSlash ((splitSlash p.data).dropLast))

/-- `os.path.join` for the dirname/basename split used here. -/
def joinPath (d b : String) : String :=
  if d = "" then b else d ++ "/" ++ b

/-- The backup location computed at pymake.py:50-51 with the arguments
passed by `TaskReq.run` (pymake.py:295-297): `prepend='.'`,
`extension='~pymake_backup'`. -/
def backupPath (path : String) : String :=
  joinPath (dirname path) ("." ++ basename path ++ "~pymake_backup")

/-- `backup_existing_while` (pymake.py:28-79) specialised to the call site
in `TaskReq.run`: move an existing target aside, run the action, and on
failure restore the backup (or remove a freshly created target via
`else_on_fail`); on success remove the backup.  The action returns the new
filesystem and its success flag (`False` models the raised
`CalledProcessError`). -/
def backup_existing_while (path : String)
    (else_on_fail : Option (String → CFS → CFS))
    (action : CFS → CFS × Bool) (fs : CFS) : CFS × Bool :=
  let bp := backupPath path
  let original_exists := (fs path).isSome
  let fs1 := if original_exists then fsRename path bp fs else fs
  let r := action fs1
  if r.2 then
    (if original_exists then fsRemove bp r.1 else r.1, true)
  else
    if original_exists then (fsRename bp path r.1, false)
    else if (r.1 path).isSome then
      match else_on_fail with
      | some f => (f path r.1, false)
      | none => (r.1, false)
    else (r.1, false)

/-- `TaskReq.run` (pymake.py:288-309) with `execute=True`: run the recipe
under the backup protocol, with `else_on_fail=os.remove`.  The `shell`
function models `subprocess.Popen(recipe, shell=True)` followed by
`proc.wait()`: it returns the filesystem after the command and `true`
exactly when the exit status is zero. -/
def taskRunFS (shell : String → CFS → CFS × Bool) (trgt recipe : String)
    (fs : CFS) : CFS × Bool :=
  backup_existing_while trgt (some fsRemove) (shell recipe) fs

/-! ## Reachability in the dependency graph -/

/-- One edge of the dependency graph: `b` is in the prerequisite set of
`a`. -/
def stepsTo (g : Graph) (a b : Req) : Bool :=
  match glookup g a with
  | some l => pmem Req.pkey b l
  | none => false

/-- `b` is reachable from `a` along at most `k ≥ 1` edges. -/
def reachN (g : Graph) : Nat → Req → Req → Bool
  | 0, _, _ => false
  | k + 1, a, b =>
    stepsTo g a b || ((glookup g a).getD []).any fun c => reachN g k c b

/-! ## Concrete instances used by the evaluation theorems -/

/-- An identity formatter: models templates that contain no placeholders
(`str.format` returns them verbatim). -/
def idFmt : String → String → String := fun tpl _ => tpl

/-- Rule `a <- [b]` with recipe `R`. -/
def exRuleA : Rule :=
  Rule.init (fun s => s == "a") ["b"] idFmt idFmt (some "R") false

/-- Rule `b <- [a2]` with recipe `S`. -/
def exRuleB : Rule :=
  Rule.init (fun s => s == "b") ["a2"] idFmt idFmt (some "S") false

/-- Rule `a2 <- []` with recipe `R` — the same instantiated recipe as
`exRuleA`, so its task is hash-identical to the task for target `a`. -/
def exRuleC : Rule :=
  Rule.init (fun s => s == "a2") [] idFmt idFmt (some "R") false

/-- An empty filesystem: no target exists on disk. -/
def emptyMFS : MFS := fun _ => none

/-- The planner examples for the NaN-propagation claim: a target `A`
(mtime 10) with prerequisites `B` (a plain file, mtime 5) and `C` (a task
whose target does not exist, timestamp NaN). -/
def exReqA : Req := .task "A" ["B", "C"] "rA" false

/-- Prerequisite `B`: a plain file. -/
def exReqB : Req := .file "B"

/-- Prerequisite `C`: a task whose target is missing. -/
def exReqC : Req := .task "C" [] "rC" false

/-- mtimes for the planner examples: `A` at 10, `B` at 5, `C` missing. -/
def exMFS : MFS :=
  fun s => if s == "A" then some 10 else if s == "B" then some 5 else none

/-- Executor example tasks: `exTaskA` is the root wave, `exTaskB` the
deeper wave. -/
def exTaskA : Req := .task "A" [] "echo A" false

/-- The failing task of the executor example. -/
def exTaskB : Req := .task "B" [] "false" false

/-- Execution oracle for the executor example: every task succeeds except
`exTaskB` (its recipe exits nonzero). -/
def exOk : Req → Bool := fun t => !(t.target == "B")

/-! ## Claim theorems -/

deriving instance DecidableEq for Except

/-- C10: a `Rule` constructed with an empty-string recipe is normalized by
`__init__` to having no recipe at all — the constructed rule is equal, as a
record, to the one built with `recipe=None`, and `make_task` on it returns
a `DummyReq` whose prerequisites are the instantiated (stripped)
prerequisite templates. -/
theorem rule_empty_recipe_is_dummy (ap : String → Bool) (tpls : List String)
    (fp fr : String → String → String) (oo : Bool) (trgt : String) :
    Rule.init ap tpls fp fr (some "") oo = Rule.init ap tpls fp fr none oo ∧
    (Rule.init ap tpls fp fr (some "") oo).make_task trgt =
      Req.dummy trgt ((tpls.map pstrip).map fun tpl => fp tpl trgt) := by
  refine ⟨?_, ?_⟩
  · simp [Rule.init]
  · simp [Rule.init, Rule.make_task, Rule.make_preqs]

/-- C9: for a task flagged order-only whose target exists, `last_update`
returns `0.0` whatever the real mtime is; when the target does not exist,
the ordinary rule applies and the timestamp is NaN. -/
theorem order_only_last_update (fs : MFS) (t : String) (preqs : List String)
    (recipe : String) :
    (∀ m : ℚ, fs t = some m →
      (Req.task t preqs recipe true).last_update fs = TS.val 0) ∧
    (fs t = none →
      (Req.task t preqs recipe true).last_update fs = TS.nan) := by
  refine ⟨fun m hm => ?_, fun hm => ?_⟩
  · simp [Req.last_update, hm]
  · simp [Req.last_update, hm]

/-- Witness for C9 at a concrete filesystem where the order-only target
exists with mtime 7. -/
theorem order_only_last_update_witness :
    ((fun s => if s = "p" then some (7 : ℚ) else none) : MFS) "p" = some 7 ∧
    (Req.task "p" [] "r" true).last_update
      (fun s => if s = "p" then some (7 : ℚ) else none) = TS.val 0 :=
  ⟨rfl, (order_only_last_update (fun s => if s = "p" then some (7 : ℚ) else none)
    "p" [] "r").1 7 rfl⟩

/-- C2 fails on the code: Python's builtin `max` keeps the running
candidate when a comparison with NaN returns `False`, so a NaN
prerequisite timestamp dominates only when it comes first.  With the
timestamps combined as `[5, NaN]` the maximum is `5`, not NaN, and
`build_orders` then treats target `A` (mtime 10) as up to date and discards
the scheduled rebuild of the missing prerequisite `C`; combining the same
timestamps as `[NaN, 5]` yields NaN and schedules `A` and `C` — the inline
comment "last_graph_update is *nan* if _any_ prereq is nan"
(pymake.py:432) is contradicted. -/
theorem pymax_nan_order_dependent :
    pymax [TS.val 5, TS.nan] = TS.val 5 ∧
    pymax [TS.nan, TS.val 5] = TS.nan ∧
    build_orders exMFS 3 exReqA [(exReqA, [exReqB, exReqC]), (exReqC, [])] =
      some ([[]], TS.val 10) ∧
    build_orders exMFS 3 exReqA [(exReqA, [exReqC, exReqB]), (exReqC, [])] =
      some ([[exReqA], [exReqC]], TS.nan) := by
  refine ⟨rfl, rfl, by decide, by decide⟩

/-- C1 fails on the code in parallel mode: `TaskReq.run` never sets the
`exc_event` it is handed, thread exceptions are swallowed, so after the
deep wave's only task fails the executor still starts the later (root)
wave and reports overall success; in sequential mode the raised
`CalledProcessError` does halt everything after the failing task. -/
theorem parallel_executor_ignores_failure :
    exOk exTaskB = false ∧
    run_orders_par exOk [[exTaskA], [exTaskB]] = ([exTaskB, exTaskA], true) ∧
    run_orders_seq exOk [[exTaskA], [exTaskB]] = ([exTaskB], false) := by
  refine ⟨rfl, by decide, by decide⟩

/-- C6 fails on the code: recipe-content identity can alias two distinct
targets into one dict key during the union at pymake.py:371-372.  With
rules `a <- [b]` (recipe `R`), `b <- [a2]` (recipe `S`), `a2 <- []`
(recipe `R`), resolving `a` returns (instead of raising) a graph in which
the entry created for `a2` is overwritten with the prerequisite set of
`a`, producing `a2 -> b -> a2`: a node reachable from itself, contradicting
the docstring "The returned graph is guarenteed to be acyclic"
(pymake.py:339). -/
theorem dedup_builds_cyclic_graph :
    build_dep_graph emptyMFS 4 "a" [exRuleA, exRuleB, exRuleC] =
      some (.ok (Req.task "a" ["b"] "R" false,
        [(Req.task "a2" [] "R" false, [Req.task "b" ["a2"] "S" false]),
         (Req.task "b" ["a2"] "S" false, [Req.task "a2" [] "R" false])])) ∧
    reachN
      [(Req.task "a2" [] "R" false, [Req.task "b" ["a2"] "S" false]),
       (Req.task "b" ["a2"] "S" false, [Req.task "a2" [] "R" false])]
      2 (Req.task "a2" [] "R" false) (Req.task "a2" [] "R" false) = true := by
  refine ⟨by decide, by decide⟩

/-- When no rule's pattern matches the target, the scan finds nothing. -/
lemma findRule_eq_none (rules : List Rule) (trgt : String)
    (h : ∀ r ∈ rules, r.applies trgt = false) : findRule rules trgt = none := by
  induction rules with
  | nil => rfl
  | cons r rs ih =>
    have hr : r.applies trgt = false := h r (List.mem_cons_self r rs)
    have hrest : findRule rs trgt = none :=
      ih fun q hq => h q (List.mem_cons_of_mem r hq)
    simp [findRule, hr, hrest]

/-- C8: when no rule applies to the target, `build_dep_graph` returns a
`FileReq` leaf with an empty prerequisite set if a file exists at the
target path, and otherwise raises the single
no-rule/missing-file/cycle `ValueError`; in the latter case `make` fails
with that error and its executed-task list is empty — the build aborts
before any recipe executes. -/
theorem no_matching_rule_behavior (fs : MFS) (ok : Req → Bool) (n : Nat)
    (trgt : String) (rules : List Rule) (par : Bool)
    (h : ∀ r ∈ rules, r.applies trgt = false) :
    ((fs trgt).isSome →
      build_dep_graph fs (n + 1) trgt rules =
        some (.ok (.file trgt, [(.file trgt, [])]))) ∧
    (fs trgt = none →
      build_dep_graph fs (n + 1) trgt rules = some (.error (noRuleMsg trgt)) ∧
      makeRun fs ok (n + 1) trgt rules par = some ([], .error (noRuleMsg trgt))) := by
  have hfind := findRule_eq_none rules trgt h
  constructor
  · intro hex
    simp [build_dep_graph, hfind, hex]
  · intro hex
    have hbdg : build_dep_graph fs (n + 1) trgt rules =
        some (.error (noRuleMsg trgt)) := by
      simp [build_dep_graph, hfind, hex]
    exact ⟨hbdg, by simp [makeRun, hbdg]⟩

/-- Witness for C8: a target with no rules and no file on disk aborts with
the `ValueError` and executes nothing. -/
theorem no_matching_rule_behavior_witness :
    build_dep_graph emptyMFS 1 "x" [] = some (.error (noRuleMsg "x")) ∧
    makeRun emptyMFS exOk 1 "x" [] true = some ([], .error (noRuleMsg "x")) :=
  (no_matching_rule_behavior emptyMFS exOk 0 "x" [] true
    (fun r hr => absurd hr (List.not_mem_nil r))).2 rfl

/-- The running maximum of Python's `max` is always one of the inputs. -/
lemma pymax_foldl_mem (t : List TS) :
    ∀ acc : TS,
      t.foldl (fun a x => if TS.lt a x then x else a) acc ∈ acc :: t := by
  induction t with
  | nil => intro acc; simp
  | cons x xs ih =>
    intro acc
    have h := ih (if TS.lt acc x then x else acc)
    rw [List.foldl_cons]
    rcases List.mem_cons.1 h with h₁ | h₁
    · rw [h₁]
      cases hlt : TS.lt acc x
      · simp [hlt]
      · simp [hlt]
    · exact List.mem_cons_of_mem _ (List.mem_cons_of_mem _ h₁)

/-- Python's `max` of a non-empty list returns one of its elements. -/
lemma pymax_mem (l : List TS) (h : l ≠ []) : pymax l ∈ l := by
  cases l with
  | nil => exact absurd rfl h
  | cons x xs => exact pymax_foldl_mem xs x

/-- `boFold` on a non-empty prerequisite list returns a non-empty
timestamp list. -/
lemma boFold_ts_ne_nil (step : Req → Option (List (List Req) × TS))
    (p : Req) (ps : List Req) (ols : List (List (List Req))) (ts : List TS)
    (h : boFold step (p :: ps) = some (ols, ts)) : ts ≠ [] := by
  rcases hstep : step p with _ | ⟨ol, t⟩ <;> rw [boFold, hstep] at h
  · exact absurd h (by simp)
  · rcases hrest : boFold step ps with _ | ⟨ols', ts'⟩ <;> rw [hrest] at h
    · exact absurd h (by simp)
    · simp only [Option.some_inj, Prod.mk.injEq] at h
      rw [← h.2]
      exact List.cons_ne_nil t ts'

/-- C3: in the recursive case of `build_orders`, when every prerequisite's
effective timestamp is defined and strictly older than the node's own
defined timestamp, the node contributes only an empty wave and propagates
its own timestamp; and the comparison is non-strict the other way: when
the latest prerequisite timestamp is defined and greater than or equal to
the node's own timestamp, the node is prepended as a new singleton wave
ahead of the merged prerequisite waves. -/
theorem staleness_comparison (fs : MFS) (n : Nat) (req : Req) (g : Graph)
    (p : Req) (ps : List Req) (ols : List (List (List Req))) (ts : List TS)
    (o : ℚ)
    (hg : glookup g req = some (p :: ps))
    (hrec : boFold (fun q => build_orders fs n q g) (p :: ps) = some (ols, ts))
    (hown : req.last_update fs = TS.val o) :
    ((∀ t ∈ ts, ∃ q : ℚ, t = TS.val q ∧ q < o) →
      build_orders fs (n + 1) req g = some ([[]], TS.val o)) ∧
    (∀ m : ℚ, pymax ts = TS.val m → o ≤ m →
      build_orders fs (n + 1) req g =
        some ([req] :: merge_orders Req.pkey ols, TS.val m)) := by
  constructor
  · intro hall
    obtain ⟨q, hq, hlt⟩ :=
      hall (pymax ts) (pymax_mem ts (boFold_ts_ne_nil _ p ps ols ts hrec))
    have hcmp : TS.lt (pymax ts) (TS.val o) = true := by
      rw [hq]
      simpa [TS.lt] using hlt
    simp only [build_orders, hg, hrec, hown]
    simp [hcmp]
  · intro m hm hle
    have hcmp : TS.lt (TS.val m) (TS.val o) = false := by
      simpa [TS.lt, not_lt] using hle
    simp only [build_orders, hg, hrec, hown, hm]
    simp [hcmp]

/-- The staleness-witness node: a task for target `t` with one
prerequisite `p`. -/
def wReq : Req := .task "t" ["p"] "r" false

/-- The staleness-witness graph: `wReq` depends on the plain file `p`. -/
def wGraph : Graph := [(wReq, [Req.file "p"])]

/-- mtimes for the up-to-date scenario: target at 10, prerequisite at 5. -/
def wFS1 : MFS :=
  fun s => if s == "t" then some 10 else if s == "p" then some 5 else none

/-- mtimes for the tie scenario: target and prerequisite both at 5. -/
def wFS2 : MFS :=
  fun s => if s == "t" then some 5 else if s == "p" then some 5 else none

/-- Witness for C3 on a one-prerequisite graph: with the target at
mtime 10 and its prerequisite file at mtime 5 the node is up to date
(empty wave, own timestamp propagated); with the target at mtime 5 —
equal timestamps — the tie-break schedules the node. -/
theorem staleness_comparison_witness :
    build_orders wFS1 2 wReq wGraph = some ([[]], TS.val 10) ∧
    build_orders wFS2 2 wReq wGraph = some ([[wReq]], TS.val 5) := by
  constructor
  · exact (staleness_comparison wFS1 1 wReq wGraph (Req.file "p") [] [[[]]]
      [TS.val 5] 10 (by decide) (by decide) (by decide)).1
      (by rintro t ht; simp at ht; exact ⟨5, ht, by norm_num⟩)
  · have h := (staleness_comparison wFS2 1 wReq wGraph (Req.file "p") [] [[[]]]
      [TS.val 5] 5 (by decide) (by decide) (by decide)).2 5 (by decide) le_rfl
    have e : merge_orders Req.pkey [[[]]] = ([] : List (List Req)) := by decide
    rw [e] at h
    exact h

/-- C4: the scoped-backup protocol of `TaskReq.run`.  When the recipe's
shell invocation fails (exit nonzero): if a prior version of the target
existed it is moved back over the target path (so, provided the recipe did
not disturb the hidden backup file, the prior content is restored); if no
prior version existed, no file is left at the target path — any incomplete
output the failed recipe produced is removed by the `else_on_fail`
handler.  On success with a prior version, the backup copy is deleted. -/
theorem backup_restore_protocol (path recipe : String)
    (shell : String → CFS → CFS × Bool) (fs : CFS) :
    (∀ c fs2, fs path = some c →
      shell recipe (fsRename path (backupPath path) fs) = (fs2, false) →
      fs2 (backupPath path) =
        fsRename path (backupPath path) fs (backupPath path) →
      taskRunFS shell path recipe fs =
        (fsRename (backupPath path) path fs2, false) ∧
      (taskRunFS shell path recipe fs).1 path = some c) ∧
    (fs path = none → (taskRunFS shell path recipe fs).2 = false →
      (taskRunFS shell path recipe fs).1 path = none) ∧
    (fs path ≠ none → (taskRunFS shell path recipe fs).2 = true →
      (taskRunFS shell path recipe fs).1 (backupPath path) = none) := by
  refine ⟨?_, ?_, ?_⟩
  · intro c fs2 hc hshell hkeep
    have hex : (fs path).isSome = true := by rw [hc]; rfl
    have hrun : taskRunFS shell path recipe fs =
        (fsRename (backupPath path) path fs2, false) := by
      simp only [taskRunFS, backup_existing_while, hex, if_true, hshell]
      rfl
    refine ⟨hrun, ?_⟩
    rw [hrun]
    show fsRename (backupPath path) path fs2 path = some c
    rw [fsRename, if_pos rfl, hkeep, fsRename, if_pos rfl, hc]
  · intro hc hfail
    have hex : (fs path).isSome = false := by rw [hc]; rfl
    rcases hshell : shell recipe fs with ⟨fs2, ok⟩
    cases ok with
    | true =>
      exfalso
      have : (taskRunFS shell path recipe fs).2 = true := by
        simp [taskRunFS, backup_existing_while, hex, hshell]
      rw [this] at hfail
      exact Bool.noConfusion hfail
    | false =>
      cases hnew : (fs2 path).isSome with
      | true =>
        have : taskRunFS shell path recipe fs = (fsRemove path fs2, false) := by
          simp [taskRunFS, backup_existing_while, hex, hshell, hnew]
        rw [this]
        show fsRemove path fs2 path = none
        rw [fsRemove, if_pos rfl]
      | false =>
        have : taskRunFS shell path recipe fs = (fs2, false) := by
          simp [taskRunFS, backup_existing_while, hex, hshell, hnew]
        rw [this]
        exact Option.not_isSome_iff_eq_none.1 (by simp [hnew])
  · intro hc hok
    have hex : (fs path).isSome = true := Option.isSome_iff_ne_none.2 hc
    rcases hshell : shell recipe (fsRename path (backupPath path) fs)
      with ⟨fs2, ok⟩
    cases ok with
    | true =>
      have : taskRunFS shell path recipe fs =
          (fsRemove (backupPath path) fs2, true) := by
        simp [taskRunFS, backup_existing_while, hex, hshell]
      rw [this]
      show fsRemove (backupPath path) fs2 (backupPath path) = none
      rw [fsRemove, if_pos rfl]
    | false =>
      exfalso
      have : (taskRunFS shell path recipe fs).2 = false := by
        simp [taskRunFS, backup_existing_while, hex, hshell]
      rw [this] at hok
      exact Bool.noConfusion hok

/-- The backup-witness filesystem: only `out` exists, with content
`old`. -/
def wCFS : CFS := fun p => if p = "out" then some "old" else none

/-- Witness for C4: a recipe that fails without touching the filesystem
leaves the prior content of `out` in place (restored from the backup). -/
theorem backup_restore_protocol_witness :
    (taskRunFS (fun _ f => (f, false)) "out" "cmd" wCFS).1 "out" =
      some "old" :=
  ((backup_restore_protocol "out" "cmd" (fun _ f => (f, false)) wCFS).1
    "old" (fsRename "out" (backupPath "out") wCFS) rfl rfl rfl).2

/-- The hash-identity keys of a graph's nodes, in insertion order. -/
def gkeys (g : Graph) : List String := g.map fun e => e.1.pkey

/-- Overwriting the value at a key leaves the key list unchanged. -/
lemma gkeys_overwrite (g : Graph) (k : String) (v : List Req) :
    gkeys (g.map fun e => if e.1.pkey = k then (e.1, v) else e) = gkeys g := by
  induction g with
  | nil => rfl
  | cons e es ih =>
    simp only [gkeys, List.map_cons] at ih ⊢
    rw [ih]
    by_cases h1 : e.1.pkey = k <;> simp [h1]

/-- `ginsert` preserves distinctness of the node keys. -/
lemma nodup_ginsert (g : Graph) (r : Req) (v : List Req)
    (h : (gkeys g).Nodup) : (gkeys (ginsert g r v)).Nodup := by
  unfold ginsert
  by_cases hc : (g.any fun e => decide (e.1.pkey = r.pkey)) = true
  · rw [if_pos hc, gkeys_overwrite]
    exact h
  · rw [if_neg hc]
    have hnot : r.pkey ∉ gkeys g := by
      intro hmem
      apply hc
      rw [List.any_eq_true]
      obtain ⟨e, he, hk⟩ := List.mem_map.1 hmem
      exact ⟨e, he, by simp [hk]⟩
    have : gkeys (g ++ [(r, v)]) = gkeys g ++ [r.pkey] := by
      simp [gkeys]
    rw [this]
    exact List.Nodup.append h (List.nodup_singleton _)
      (by simpa [List.disjoint_singleton] using hnot)

/-- `graphUnion` preserves distinctness of the accumulated keys. -/
lemma nodup_graphUnion (b : Graph) :
    ∀ a : Graph, (gkeys a).Nodup → (gkeys (graphUnion a b)).Nodup := by
  induction b with
  | nil => intro a h; exact h
  | cons e es ih =>
    intro a h
    show (gkeys (es.foldl (fun g x => ginsert g x.1 x.2)
      (ginsert a e.1 e.2))).Nodup
    exact ih _ (nodup_ginsert a e.1 e.2 h)

/-- The prerequisite loop of `build_dep_graph` preserves distinctness of
the accumulated graph's keys, whatever the recursive resolver returns. -/
lemma bdgFold_nodup (step : String → Option (Except String (Req × Graph))) :
    ∀ (ps : List String) (accT : List Req) (accG : Graph),
      (gkeys accG).Nodup →
      ∀ (l : List Req) (g : Graph),
        bdgFold step ps accT accG = some (.ok (l, g)) → (gkeys g).Nodup := by
  intro ps
  induction ps with
  | nil =>
    intro accT accG h l g hfold
    simp only [bdgFold, Option.some_inj] at hfold
    obtain ⟨-, rfl⟩ : accT = l ∧ accG = g := by
      cases hfold
      exact ⟨rfl, rfl⟩
    exact h
  | cons p ps ih =>
    intro accT accG h l g hfold
    rw [bdgFold] at hfold
    rcases hstep : step p with _ | e <;> rw [hstep] at hfold
    · exact absurd hfold (by simp)
    · cases e with
      | error e => exact absurd hfold (by simp)
      | ok pr =>
        exact ih _ _ (nodup_graphUnion pr.2 accG h) l g hfold

/-- The graph returned by `build_dep_graph` never contains two entries
with the same hash-identity key: hash-equal tasks collapse to a single
node. -/
lemma build_dep_graph_nodup (fs : MFS) (n : Nat) (trgt : String)
    (rules : List Rule) (root : Req) (g : Graph)
    (h : build_dep_graph fs n trgt rules = some (.ok (root, g))) :
    (gkeys g).Nodup := by
  cases n with
  | zero => exact absurd h (by simp [build_dep_graph])
  | succ n =>
    rw [build_dep_graph] at h
    rcases hfind : findRule rules trgt with _ | ⟨rule, rest⟩ <;>
      rw [hfind] at h
    · by_cases hex : (fs trgt).isSome = true
      · rw [if_pos hex, Option.some_inj] at h
        cases h
        simp [gkeys]
      · rw [if_neg hex] at h
        exact absurd h (by simp)
    · rcases hfold : bdgFold (fun p => build_dep_graph fs n p rest)
          ((rule.make_task trgt).prerequisites) [] [] with _ | e <;>
        simp only [hfold] at h
      · exact absurd h (by simp)
      · cases e with
        | error e => exact absurd h (by simp)
        | ok pr =>
          obtain ⟨pt, tg⟩ := pr
          have htg := bdgFold_nodup _ _ _ _ (by simp [gkeys]) _ _ hfold
          simp only [Option.some_inj] at h
          cases h
          exact nodup_ginsert tg _ pt htg

/-- Rule `all <- [x.out, y.out]`, no recipe (aggregate). -/
def ruleAll : Rule :=
  Rule.init (fun s => s == "all") ["x.out", "y.out"] idFmt idFmt none false

/-- Rule for `x.out`, recipe `gen`. -/
def ruleX : Rule :=
  Rule.init (fun s => s == "x.out") [] idFmt idFmt (some "gen") false

/-- Rule for `y.out`, recipe `gen` — byte-identical to `ruleX`'s
instantiated recipe. -/
def ruleY : Rule :=
  Rule.init (fun s => s == "y.out") [] idFmt idFmt (some "gen") false

/-- C5: `TaskReq` equality and hash are determined by the recipe string,
all other variants by the target identifier; consequently the graph
returned by `build_dep_graph` has pairwise-distinct node keys, and two
distinct target names (`x.out`, `y.out`) whose rules instantiate to the
byte-identical recipe `gen` collapse into a single task node — the
aggregate root's prerequisite set holds one task, so the recipe is run
once per build. -/
theorem recipe_identity_collapses_tasks :
    (∀ (t₁ : String) (p₁ : List String) (r₁ : String) (o₁ : Bool)
       (t₂ : String) (p₂ : List String) (r₂ : String) (o₂ : Bool),
      Req.eqb (.task t₁ p₁ r₁ o₁) (.task t₂ p₂ r₂ o₂) = some (r₁ == r₂) ∧
      (Req.task t₁ p₁ r₁ o₁).hashKey = r₁) ∧
    (∀ a b : Req, a.isTask = false →
      Req.eqb a b = some (a.target == b.target) ∧ a.hashKey = a.target) ∧
    (∀ (fs : MFS) (n : Nat) (trgt : String) (rules : List Rule)
       (root : Req) (g : Graph),
      build_dep_graph fs n trgt rules = some (.ok (root, g)) →
      (gkeys g).Nodup) ∧
    build_dep_graph emptyMFS 3 "all" [ruleAll, ruleX, ruleY] =
      some (.ok (Req.dummy "all" ["x.out", "y.out"],
        [(Req.task "x.out" [] "gen" false, []),
         (Req.dummy "all" ["x.out", "y.out"],
          [Req.task "x.out" [] "gen" false])])) := by
  refine ⟨fun t₁ p₁ r₁ o₁ t₂ p₂ r₂ o₂ => ⟨rfl, rfl⟩, ?_, build_dep_graph_nodup, by decide⟩
  intro a b h
  cases a with
  | file t => exact ⟨by cases b <;> rfl, rfl⟩
  | task t p r o => exact absurd h (by simp [Req.isTask])
  | dummy t p => exact ⟨by cases b <;> rfl, rfl⟩

/-- Witness for C5: the cross-variant equality clause at concrete
requirements, and the key-distinctness clause at the concrete collapsed
graph. -/
theorem recipe_identity_collapses_tasks_witness :
    Req.eqb (Req.file "a") (Req.dummy "a" []) = some ("a" == "a") ∧
    (gkeys [(Req.task "x.out" [] "gen" false, []),
            (Req.dummy "all" ["x.out", "y.out"],
             [Req.task "x.out" [] "gen" false])]).Nodup :=
  ⟨(recipe_identity_collapses_tasks.2.1 (Req.file "a") (Req.dummy "a" [])
      rfl).1,
   recipe_identity_collapses_tasks.2.2.1 emptyMFS 3 "all"
     [ruleAll, ruleX, ruleY] _ _ recipe_identity_collapses_tasks.2.2.2⟩

section MergeProofs

variable {α κ : Type} [DecidableEq κ]

/-- Key membership respects key equality. -/
lemma pmem_congr (key : α → κ) {x y : α} (h : key x = key y) (s : List α) :
    pmem key x s = pmem key y s := by
  simp [pmem, h]

/-- An actual member is a key member. -/
lemma pmem_of_mem (key : α → κ) {x : α} {s : List α} (h : x ∈ s) :
    pmem key x s = true := by
  simp only [pmem, List.any_eq_true, decide_eq_true_eq]
  exact ⟨x, h, rfl⟩

/-- A key member is witnessed by an actual member with the same key. -/
lemma exists_of_pmem (key : α → κ) {x : α} {s : List α}
    (h : pmem key x s = true) : ∃ y ∈ s, key y = key x := by
  simpa only [pmem, List.any_eq_true, decide_eq_true_eq] using h

/-- Key membership after a `set.add`. -/
lemma pmem_padd (key : α → κ) (s : List α) (y x : α) :
    pmem key x (padd key s y) = (pmem key x s || decide (key y = key x)) := by
  unfold padd
  by_cases h : pmem key y s = true
  · rw [if_pos h]
    by_cases hk : key y = key x
    · rw [pmem_congr key hk.symm, h]
      simp [hk]
    · simp [hk]
  · rw [if_neg h]
    simp [pmem, List.any_append]

/-- Key membership in a `set.union`. -/
lemma pmem_punion (key : α → κ) (t : List α) :
    ∀ (s : List α) (x : α),
      pmem key x (punion key s t) = (pmem key x s || pmem key x t) := by
  induction t with
  | nil => intro s x; simp [punion, pmem]
  | cons y ys ih =>
    intro s x
    show pmem key x (punion key (padd key s y) ys) = _
    rw [ih, pmem_padd]
    simp [pmem, Bool.or_assoc]

/-- Key membership in a cons. -/
lemma pmem_cons (key : α → κ) (y : α) (ys : List α) (x : α) :
    pmem key x (y :: ys) = (decide (key y = key x) || pmem key x ys) := by
  simp [pmem, List.any_cons]

/-- Key membership in a `set.difference`. -/
lemma pmem_pdiff (key : α → κ) (s t : List α) (x : α) :
    pmem key x (pdiff key s t) = (pmem key x s && !(pmem key x t)) := by
  induction s with
  | nil => simp [pdiff, pmem]
  | cons y ys ih =>
    by_cases hk : key y = key x
    · have hyt : pmem key y t = pmem key x t := pmem_congr key hk t
      cases hxt : pmem key x t with
      | true =>
        have hdrop : pdiff key (y :: ys) t = pdiff key ys t := by
          unfold pdiff
          rw [List.filter_cons_of_neg]
          simp [hyt, hxt]
        rw [hdrop, ih, pmem_cons, hxt]
        simp
      | false =>
        have hkeep : pdiff key (y :: ys) t = y :: pdiff key ys t := by
          unfold pdiff
          rw [List.filter_cons_of_pos]
          simp [hyt, hxt]
        rw [hkeep, pmem_cons, ih, pmem_cons, hxt]
        simp [hk]
    · cases hyt : pmem key y t with
      | true =>
        have hdrop : pdiff key (y :: ys) t = pdiff key ys t := by
          unfold pdiff
          rw [List.filter_cons_of_neg]
          simp [hyt]
        rw [hdrop, ih, pmem_cons]
        simp [hk]
      | false =>
        have hkeep : pdiff key (y :: ys) t = y :: pdiff key ys t := by
          unfold pdiff
          rw [List.filter_cons_of_pos]
          simp [hyt]
        rw [hkeep, pmem_cons, ih, pmem_cons]
        simp [hk]

/-- Key membership distributes over a fold of unions. -/
lemma pmem_foldl_punion {β : Type} (key : α → κ) (f : β → List α)
    (ls : List β) :
    ∀ (init : List α) (x : α),
      pmem key x (ls.foldl (fun acc l => punion key acc (f l)) init) =
        (pmem key x init || ls.any fun l => pmem key x (f l)) := by
  induction ls with
  | nil => intro init x; simp
  | cons l ls ih =>
    intro init x
    rw [List.foldl_cons, ih, pmem_punion]
    simp [Bool.or_assoc]

/-- The union of the sets found at position `i` of every input
wave-sequence (the `zip_longest` column `i`). -/
def atPos (key : α → κ) (ls : List (List (List α))) (i : Nat) : List α :=
  ls.foldl (fun acc l => punion key acc (l.getD i [])) []

/-- The union of all columns before `i`. -/
def beforePos (key : α → κ) : List (List (List α)) → Nat → List α
  | _, 0 => []
  | ls, i + 1 =>
    punion key (atPos key ls 0) (beforePos key (ls.map List.tail) i)

/-- The elements of column `i` whose keys appear neither in `ret` nor in
an earlier column: the set yielded by `merge_orders` for position `i` (when
non-empty). -/
def newAt (key : α → κ) (ls : List (List (List α))) (ret : List α)
    (i : Nat) : List α :=
  pdiff key (atPos key ls i) (punion key ret (beforePos key ls i))

/-- The head column is column 0. -/
lemma headsUnion_eq_atPos (key : α → κ) (ls : List (List (List α))) :
    headsUnion key ls = atPos key ls 0 := by
  unfold headsUnion atPos
  congr 1
  funext acc l
  congr 1
  cases l <;> rfl

/-- Dropping every input's head shifts the columns by one. -/
lemma atPos_tail (key : α → κ) (ls : List (List (List α))) (i : Nat) :
    atPos key (ls.map List.tail) i = atPos key ls (i + 1) := by
  unfold atPos
  rw [List.foldl_map]
  congr 1
  funext acc l
  congr 1
  cases l <;> rfl

/-- Key membership in a column, input by input. -/
lemma pmem_atPos (key : α → κ) (ls : List (List (List α))) (i : Nat)
    (x : α) :
    pmem key x (atPos key ls i) =
      ls.any fun l => pmem key x (l.getD i []) := by
  unfold atPos
  rw [pmem_foldl_punion]
  simp [pmem]

/-- Key membership in the union of the first `i` columns. -/
lemma pmem_beforePos (key : α → κ) :
    ∀ (i : Nat) (ls : List (List (List α))) (x : α),
      pmem key x (beforePos key ls i) =
        (List.range i).any fun j => pmem key x (atPos key ls j) := by
  intro i
  induction i with
  | zero => intro ls x; simp [beforePos, pmem]
  | succ i ih =>
    intro ls x
    rw [beforePos, pmem_punion, ih, List.range_succ_eq_map, List.any_cons,
      List.any_map]
    simp only [Function.comp_def, atPos_tail]

/-- `pdiff` depends on the subtrahend only through key membership. -/
lemma pdiff_congr (key : α → κ) (s t t' : List α)
    (h : ∀ x, pmem key x t = pmem key x t') :
    pdiff key s t = pdiff key s t' := by
  unfold pdiff
  apply List.filter_congr
  intro x _
  rw [h]

/-- The body of `merge_orders` computes exactly the non-empty
`newAt` sets, column by column. -/
lemma mergeAux_eq_newAt (key : α → κ) :
    ∀ (n : Nat) (ls : List (List (List α))) (ret : List α),
      mergeAux key n ls ret =
        ((List.range n).map fun i => newAt key ls ret i).filter
          fun s => !s.isEmpty := by
  intro n
  induction n with
  | zero => intro ls ret; simp [mergeAux]
  | succ n ih =>
    intro ls ret
    have hp : pdiff key (headsUnion key ls) ret = newAt key ls ret 0 := by
      rw [headsUnion_eq_atPos]
      unfold newAt beforePos
      rfl
    have hshift : ∀ i : Nat,
        newAt key (ls.map List.tail)
          (punion key ret (pdiff key (headsUnion key ls) ret)) i =
        newAt key ls ret (i + 1) := by
      intro i
      unfold newAt
      rw [atPos_tail]
      apply pdiff_congr
      intro x
      rw [pmem_punion, pmem_punion, pmem_pdiff, headsUnion_eq_atPos,
        show beforePos key ls (i + 1) =
          punion key (atPos key ls 0)
            (beforePos key (ls.map List.tail) i) from rfl,
        pmem_punion, pmem_punion]
      cases h1 : pmem key x ret <;>
        cases h2 : pmem key x (atPos key ls 0) <;>
        cases h3 : pmem key x (beforePos key (ls.map List.tail) i) <;> rfl
    simp only [mergeAux]
    rw [ih (ls.map List.tail)
      (punion key ret (pdiff key (headsUnion key ls) ret))]
    have hfuneq :
        ((fun i => newAt key ls ret i) ∘ Nat.succ) =
          fun i => newAt key (ls.map List.tail)
            (punion key ret (pdiff key (headsUnion key ls) ret)) i :=
      funext fun i => (hshift i).symm
    rw [List.range_succ_eq_map, List.map_cons, List.map_map, hfuneq,
      List.filter_cons, hp]
    by_cases hempty : (newAt key ls ret 0).isEmpty = true
    · rw [if_pos hempty,
        if_neg (show ¬(!(newAt key ls ret 0).isEmpty) = true by
          simp [hempty])]
    · have h0 : (newAt key ls ret 0).isEmpty = false :=
        Bool.eq_false_iff.2 hempty
      rw [if_neg hempty,
        if_pos (show (!(newAt key ls ret 0).isEmpty) = true by
          rw [h0]; rfl)]

/-- Every input's length is bounded by the fold computing `maxLen`. -/
lemma length_le_foldl_max {β : Type} (len : β → Nat) :
    ∀ (ls : List β) (c : Nat),
      (c ≤ ls.foldl (fun a l => max a (len l)) c) ∧
      (∀ l ∈ ls, len l ≤ ls.foldl (fun a l => max a (len l)) c) := by
  intro ls
  induction ls with
  | nil => intro c; exact ⟨le_rfl, by simp⟩
  | cons l' ls ih =>
    intro c
    constructor
    · exact le_trans (le_max_left c (len l'))
        ((ih (max c (len l'))).1)
    · intro l hl
      rcases List.mem_cons.1 hl with rfl | hl

      · exact le_trans (le_max_right c (len l))
          ((ih (max c (len l))).1)
      · exact (ih (max c (len l'))).2 l hl

/-- Every member's length is at most `maxLen`. -/
lemma length_le_maxLen {β : Type} {l : List β} {ls : List (List β)}
    (h : l ∈ ls) : l.length ≤ maxLen ls :=
  (length_le_foldl_max List.length ls 0).2 l h

/-- A member of a column set: `x ∈ newAt` implies `x` sits in column
`i`. -/
lemma mem_atPos_of_mem_newAt (key : α → κ) {ls : List (List (List α))}
    {ret : List α} {i : Nat} {x : α} (h : x ∈ newAt key ls ret i) :
    x ∈ atPos key ls i :=
  List.mem_of_mem_filter h

/-- If `any` is false on a list, the predicate is false on each member. -/
lemma eq_false_of_any_eq_false {β : Type} {p : β → Bool} {l : List β}
    (h : l.any p = false) {x : β} (hx : x ∈ l) : p x = false := by
  cases hpx : p x with
  | false => rfl
  | true =>
    have : l.any p = true := List.any_eq_true.2 ⟨x, hx, hpx⟩
    rw [this] at h
    exact Bool.noConfusion h

/-- A member of a fresh column set carries a key unseen in any earlier
column. -/
lemma newAt_not_before (key : α → κ) {ls : List (List (List α))} {i : Nat}
    {x : α} (h : x ∈ newAt key ls [] i) :
    ∀ j < i, pmem key x (atPos key ls j) = false := by
  intro j hj
  have hcond := (List.mem_filter.1 h).2
  have hpun : pmem key x
      (punion key ([] : List α) (beforePos key ls i)) = false := by
    revert hcond
    cases pmem key x (punion key ([] : List α) (beforePos key ls i)) <;>
      simp
  rw [pmem_punion] at hpun
  have hb : pmem key x (beforePos key ls i) = false := by
    simpa [pmem] using hpun
  rw [pmem_beforePos] at hb
  exact eq_false_of_any_eq_false hb (List.mem_range.2 hj)

/-- If the predicate is false on each member, `any` is false. -/
lemma any_eq_false_of_all {β : Type} {p : β → Bool} {l : List β}
    (h : ∀ x ∈ l, p x = false) : l.any p = false := by
  cases hany : l.any p with
  | false => rfl
  | true =>
    obtain ⟨x, hx, hpx⟩ := List.any_eq_true.1 hany
    rw [h x hx] at hpx
    exact Bool.noConfusion hpx

/-- A non-empty `getD` selects a member of the list of lists. -/
lemma getD_mem_of_mem {γ : Type} (l : List (List γ)) (i : Nat) {z : γ}
    (hz : z ∈ l.getD i []) : l.getD i [] ∈ l := by
  by_cases h : i < l.length
  · rw [List.getD_eq_getElem l [] h]
    exact List.getElem_mem h
  · rw [List.getD_eq_default l [] (le_of_not_lt h)] at hz
    exact absurd hz (List.not_mem_nil z)

/-- C7: `merge_orders`, applied to any sequences of requirement sets,
yields non-empty sets that are pairwise disjoint on keys, whose keys
together are exactly the keys occurring in the inputs (each key thus lands
in exactly one output set), and each output set consists of the elements
first occurring at one front-aligned column: every member sits in that
column and its key appears in no earlier column (first occurrence
wins). -/
theorem merge_orders_char {α κ : Type} [DecidableEq κ] (key : α → κ)
    (ls : List (List (List α))) :
    (∀ S ∈ merge_orders key ls, S ≠ []) ∧
    (merge_orders key ls).Pairwise
      (fun S T => ∀ x ∈ S, ∀ y ∈ T, key x ≠ key y) ∧
    (∀ x : α,
      (∃ S ∈ merge_orders key ls, ∃ y ∈ S, key y = key x) ↔
      (∃ l ∈ ls, ∃ S ∈ l, ∃ y ∈ S, key y = key x)) ∧
    (∀ S ∈ merge_orders key ls, ∃ i : Nat,
      ∀ x ∈ S, pmem key x (atPos key ls i) = true ∧
        ∀ j < i, pmem key x (atPos key ls j) = false) := by
  have he : merge_orders key ls =
      ((List.range (maxLen ls)).map fun i => newAt key ls [] i).filter
        fun s => !s.isEmpty := mergeAux_eq_newAt key (maxLen ls) ls []
  refine ⟨?_, ?_, ?_, ?_⟩
  · intro S hS hnil
    rw [he] at hS
    have hcond := (List.mem_filter.1 hS).2
    rw [hnil] at hcond
    exact Bool.noConfusion hcond
  · rw [he]
    apply List.Pairwise.sublist (List.filter_sublist _)
    rw [List.pairwise_map]
    apply List.Pairwise.imp ?_ (List.pairwise_lt_range (maxLen ls))
    intro i j hij x hx y hy hkey
    have h1 : pmem key x (atPos key ls i) = true :=
      pmem_of_mem key (mem_atPos_of_mem_newAt key hx)
    have h2 : pmem key y (atPos key ls i) = false :=
      newAt_not_before key hy i hij
    rw [← pmem_congr key hkey] at h2
    rw [h1] at h2
    exact Bool.noConfusion h2
  · intro x
    constructor
    · rintro ⟨S, hS, y, hyS, hkey⟩
      rw [he] at hS
      obtain ⟨hSmap, -⟩ := List.mem_filter.1 hS
      obtain ⟨i, hi, rfl⟩ := List.mem_map.1 hSmap
      have hmemcol : pmem key y (atPos key ls i) = true :=
        pmem_of_mem key (mem_atPos_of_mem_newAt key hyS)
      rw [pmem_atPos] at hmemcol
      obtain ⟨l, hl, hmem⟩ := List.any_eq_true.1 hmemcol
      obtain ⟨z, hz, hzy⟩ := exists_of_pmem key hmem
      exact ⟨l, hl, l.getD i [], getD_mem_of_mem l i hz, z, hz,
        hzy.trans hkey⟩
    · rintro ⟨l, hl, S, hSl, y, hyS, hkey⟩
      obtain ⟨i, hilen, hgetl⟩ := List.getElem_of_mem hSl
      have hPi : pmem key x (atPos key ls i) = true := by
        rw [pmem_atPos]
        apply List.any_eq_true.2
        refine ⟨l, hl, ?_⟩
        rw [List.getD_eq_getElem l [] hilen, hgetl]
        simp only [pmem, List.any_eq_true, decide_eq_true_eq]
        exact ⟨y, hyS, hkey⟩
      have hex : ∃ j, pmem key x (atPos key ls j) = true := ⟨i, hPi⟩
      have hfind := Nat.find_spec hex
      have hmin : ∀ j < Nat.find hex,
          pmem key x (atPos key ls j) = false :=
        fun j hj => Bool.eq_false_iff.2 (Nat.find_min hex hj)
      have hlt : Nat.find hex < maxLen ls :=
        lt_of_le_of_lt (Nat.find_min' hex hPi)
          (lt_of_lt_of_le hilen (length_le_maxLen hl))
      obtain ⟨z, hz, hzx⟩ := exists_of_pmem key hfind
      have hzNew : z ∈ newAt key ls [] (Nat.find hex) := by
        apply List.mem_filter.2
        refine ⟨hz, ?_⟩
        have hzp : pmem key z (punion key ([] : List α)
            (beforePos key ls (Nat.find hex))) = false := by
          rw [pmem_punion]
          have hbp : pmem key z (beforePos key ls (Nat.find hex)) =
              false := by
            rw [pmem_congr key hzx, pmem_beforePos]
            exact any_eq_false_of_all fun j hj =>
              hmin j (List.mem_range.1 hj)
          rw [hbp]
          rfl
        rw [hzp]
        rfl
      have hSmem : newAt key ls [] (Nat.find hex) ∈ merge_orders key ls := by
        rw [he]
        apply List.mem_filter.2
        refine ⟨List.mem_map.2 ⟨Nat.find hex, List.mem_range.2 hlt, rfl⟩, ?_⟩
        cases hN : newAt key ls [] (Nat.find hex) with
        | nil =>
          rw [hN] at hzNew
          exact absurd hzNew (List.not_mem_nil z)
        | cons a as => rfl
      exact ⟨newAt key ls [] (Nat.find hex), hSmem, z, hzNew, hzx⟩
  · intro S hS
    rw [he] at hS
    obtain ⟨hSmap, -⟩ := List.mem_filter.1 hS
    obtain ⟨i, -, rfl⟩ := List.mem_map.1 hSmap
    exact ⟨i, fun x hx =>
      ⟨pmem_of_mem key (mem_atPos_of_mem_newAt key hx),
       newAt_not_before key hx⟩⟩

/-- Witness for C7: applying the characterization at a concrete input —
the empty set is never yielded. -/
theorem merge_orders_char_witness :
    ¬(([] : List Nat) ∈
      merge_orders (fun n : Nat => n) [[[1, 2], [3]], [[2], [4]]]) :=
  fun h =>
    (merge_orders_char (fun n : Nat => n) [[[1, 2], [3]], [[2], [4]]]).1
      [] h rfl

end MergeProofs

end Pymake
